import Mathlib

/-!
Shallow embedding of the computation-graph node library in
`hw/hw7-backprop/code/node_bz.ipynb` (numpy-based reverse-mode autodiff
node classes), together with theorems settling the specification claims.

Numeric values are modelled as integers (every claim is settled on
integer inputs, and no node formula divides, so integer tensors are closed
under all modelled operations); numpy arrays are modelled as either a
0-dimensional scalar or a 1-dimensional vector (the only shapes the
implemented node classes manipulate).  Fallible numpy operations (shape
mismatches, reading an unset `out`) are modelled with `Option`.
-/

/-- A numpy value as used by the node classes: a 0-dim scalar or a 1-dim
vector of integers. -/
inductive Tensor where
  | scalar (x : ℤ)
  | vector (xs : List ℤ)
deriving DecidableEq, Repr

namespace Tensor

/-- `t.shape`, as numpy reports it: `[]` for a 0-dim array, `[n]` for a
length-`n` vector. -/
def shape : Tensor → List Nat
  | scalar _ => []
  | vector xs => [xs.length]

/-- `np.zeros(t.shape)`: the zero tensor of the same shape as `t`. -/
def zerosLike : Tensor → Tensor
  | scalar _ => scalar 0
  | vector xs => vector (xs.map fun _ => 0)

/-- Every entry of the tensor is zero. -/
def isZero : Tensor → Prop
  | scalar x => x = 0
  | vector xs => ∀ x ∈ xs, x = 0

instance : DecidablePred isZero := fun t => by
  cases t with
  | scalar x => exact inferInstanceAs (Decidable (x = 0))
  | vector xs => exact List.decidableBAll _ xs

/-- numpy elementwise `+` with scalar broadcasting; `none` on a length
mismatch between two vectors. -/
def add : Tensor → Tensor → Option Tensor
  | scalar a, scalar b => some (scalar (a + b))
  | scalar a, vector ys => some (vector (ys.map fun y => a + y))
  | vector xs, scalar b => some (vector (xs.map fun x => x + b))
  | vector xs, vector ys =>
      if xs.length = ys.length then some (vector (List.zipWith (· + ·) xs ys))
      else none

/-- numpy elementwise `-` with scalar broadcasting. -/
def sub : Tensor → Tensor → Option Tensor
  | scalar a, scalar b => some (scalar (a - b))
  | scalar a, vector ys => some (vector (ys.map fun y => a - y))
  | vector xs, scalar b => some (vector (xs.map fun x => x - b))
  | vector xs, vector ys =>
      if xs.length = ys.length then some (vector (List.zipWith (· - ·) xs ys))
      else none

/-- numpy elementwise `*` with scalar broadcasting. -/
def mul : Tensor → Tensor → Option Tensor
  | scalar a, scalar b => some (scalar (a * b))
  | scalar a, vector ys => some (vector (ys.map fun y => a * y))
  | vector xs, scalar b => some (vector (xs.map fun x => x * b))
  | vector xs, vector ys =>
      if xs.length = ys.length then some (vector (List.zipWith (· * ·) xs ys))
      else none

/-- numpy unary `-`. -/
def neg : Tensor → Tensor
  | scalar a => scalar (-a)
  | vector xs => vector (xs.map fun x => -x)

/-- `np.dot`: scalar·scalar multiplies, a scalar scales a vector, two
equal-length vectors give the inner product; otherwise an error. -/
def dot : Tensor → Tensor → Option Tensor
  | scalar a, scalar b => some (scalar (a * b))
  | scalar a, vector ys => some (vector (ys.map fun y => a * y))
  | vector xs, scalar b => some (vector (xs.map fun x => x * b))
  | vector xs, vector ys =>
      if xs.length = ys.length then
        some (scalar (List.zipWith (· * ·) xs ys).sum)
      else none

/-- `np.sum`: sum of all entries, returned as a 0-dim array. -/
def sumAll : Tensor → Tensor
  | scalar a => scalar a
  | vector xs => scalar xs.sum

/-- numpy elementwise `** 2`. -/
def pow2 : Tensor → Tensor
  | scalar a => scalar (a ^ 2)
  | vector xs => vector (xs.map fun x => x ^ 2)

/-- numpy in-place `+=`: like `add`, but the result must keep the shape of
the left operand (in-place output cannot be broadcast to a larger shape). -/
def iadd (t r : Tensor) : Option Tensor :=
  (add t r).bind fun u => if u.shape = t.shape then some u else none

end Tensor

/-- The node classes of the source, as a closed tagged variant.  Operator
nodes store the indices of their predecessor nodes in the ambient node
list; `l2NormPenalty` additionally stores the fixed scalar `l2_reg`
construction parameter (not a node).  `AffineNode` and `TanhNode` are
empty `## TODO` placeholders in the source and have no constructor here;
the Affine formulas fixed by the spec are modelled separately below. -/
inductive NodeKind where
  | value
  | vectorScalarAffine (x w b : Nat)
  | squaredL2Distance (a b : Nat)
  | l2NormPenalty (l2_reg : ℤ) (w : Nat)
  | sumNode (a b : Nat)
deriving DecidableEq, Repr

/-- The mutable attributes of one node object: `out`, `d_out`, and the
`a_minus_b` cache (only `SquaredL2DistanceNode` ever writes or reads the
cache).  `none` models a Python `None`/unset attribute. -/
structure NodeState where
  out : Option Tensor
  d_out : Option Tensor
  a_minus_b : Option Tensor
deriving DecidableEq, Repr

/-- A wired graph: the node at index `i` has kind `g[i]`. -/
abbrev Graph := List NodeKind

/-- The mutable state of the whole graph, indexed like the graph. -/
abbrev GState := List NodeState

/-- `forward` of the node class `k` on attributes `st`, reading predecessor
outputs from `s`: returns the new `out` together with the new value of the
`a_minus_b` cache attribute (unchanged except for `SquaredL2DistanceNode`).
Each branch transcribes the corresponding Python `forward` body. -/
def computeForward (s : GState) (k : NodeKind) (st : NodeState) :
    Option (Tensor × Option Tensor) :=
  match k with
  | .value => do
      -- ValueNode.forward: returns self.out (which must have been assigned)
      let o ← st.out
      some (o, st.a_minus_b)
  | .vectorScalarAffine x w b => do
      -- self.out = np.dot(self.x.out, self.w.out) + self.b.out
      let xo ← (← s[x]?).out
      let wo ← (← s[w]?).out
      let bo ← (← s[b]?).out
      let d ← Tensor.dot xo wo
      let o ← Tensor.add d bo
      some (o, st.a_minus_b)
  | .squaredL2Distance a b => do
      -- self.a_minus_b = self.a.out - self.b.out
      -- self.out = np.sum(self.a_minus_b ** 2)
      let ao ← (← s[a]?).out
      let bo ← (← s[b]?).out
      let amb ← Tensor.sub ao bo
      some (Tensor.sumAll (Tensor.pow2 amb), some amb)
  | .l2NormPenalty _ w => do
      -- self.out = np.sum(self.w.out ** 2)   (note: l2_reg is not used)
      let wo ← (← s[w]?).out
      some (Tensor.sumAll (Tensor.pow2 wo), st.a_minus_b)
  | .sumNode a b => do
      -- self.out = self.a.out + self.b.out
      let ao ← (← s[a]?).out
      let bo ← (← s[b]?).out
      let o ← Tensor.add ao bo
      some (o, st.a_minus_b)

/-- Run `forward()` on node `i`: compute the new output, then
`self.d_out = np.zeros(self.out.shape)` — every class's `forward` resets
`d_out` to the zero tensor of `out`'s shape right after setting `out`. -/
def forwardNode (g : Graph) (s : GState) (i : Nat) : Option GState := do
  let k ← g[i]?
  let st ← s[i]?
  let (o, c) ← computeForward s k st
  some (List.set s i { out := some o, d_out := some o.zerosLike, a_minus_b := c })

/-- `self.<pred>.d_out += contrib` for predecessor index `j`. -/
def addIntoPred (s : GState) (j : Nat) (contrib : Tensor) : Option GState := do
  let st ← s[j]?
  let d ← st.d_out
  let d2 ← Tensor.iadd d contrib
  some (List.set s j { st with d_out := some d2 })

/-- `backward()` of node `i`.  Each branch transcribes the corresponding
Python `backward` body: local gradients are computed from `self.d_out`
(and, where the source reads them, predecessor outputs or the cached
`a_minus_b`), then added into each predecessor's `d_out`. -/
def backwardNode (g : Graph) (s : GState) (i : Nat) : Option GState := do
  let k ← g[i]?
  let st ← s[i]?
  match k with
  | .value => some s  -- ValueNode.backward: pass
  | .vectorScalarAffine x w b => do
      -- d_x = self.d_out * self.w.out ; d_w = self.d_out * self.x.out
      -- d_b = self.d_out
      let d ← st.d_out
      let xo ← (← s[x]?).out
      let wo ← (← s[w]?).out
      let dx ← Tensor.mul d wo
      let dw ← Tensor.mul d xo
      let s1 ← addIntoPred s x dx
      let s2 ← addIntoPred s1 w dw
      addIntoPred s2 b d
  | .squaredL2Distance a b => do
      -- d_a = self.d_out * 2 * self.a_minus_b
      -- d_b = -self.d_out * 2 * self.a_minus_b
      let d ← st.d_out
      let c ← st.a_minus_b
      let t1 ← Tensor.mul d (Tensor.scalar 2)
      let da ← Tensor.mul t1 c
      let t2 ← Tensor.mul (Tensor.neg d) (Tensor.scalar 2)
      let db ← Tensor.mul t2 c
      let s1 ← addIntoPred s a da
      addIntoPred s1 b db
  | .l2NormPenalty _ w => do
      -- d_w = self.d_out * 2 * self.w.out   (note: l2_reg is not used)
      let d ← st.d_out
      let wo ← (← s[w]?).out
      let t1 ← Tensor.mul d (Tensor.scalar 2)
      let dw ← Tensor.mul t1 wo
      addIntoPred s w dw
  | .sumNode a b => do
      -- d_a = self.d_out ; d_b = self.d_out
      let d ← st.d_out
      let s1 ← addIntoPred s a d
      addIntoPred s1 b d

/-- An element of the list returned by `get_predecessors`: the source's
`L2NormPenaltyNode.get_predecessors` puts the raw scalar `l2_reg` in the
list alongside the node `w`, so the element type is heterogeneous. -/
inductive PredItem where
  | node (i : Nat)
  | scalarParam (q : ℤ)
deriving DecidableEq, Repr

/-- `get_predecessors()` of each node class, transcribed from the source.
Note the `l2NormPenalty` case returns `[self.w, self.l2_reg]`. -/
def get_predecessors : NodeKind → List PredItem
  | .value => []
  | .vectorScalarAffine x w b => [.node x, .node w, .node b]
  | .squaredL2Distance a b => [.node a, .node b]
  | .l2NormPenalty l2_reg w => [.node w, .scalarParam l2_reg]
  | .sumNode a b => [.node a, .node b]

example :
    forwardNode [.value, .value, .squaredL2Distance 0 1]
      [⟨some (.vector [1, 2, 3]), none, none⟩,
       ⟨some (.vector [4, 5, 7]), none, none⟩,
       ⟨none, none, none⟩] 0 =
    some [⟨some (.vector [1, 2, 3]), some (.vector [0, 0, 0]), none⟩,
          ⟨some (.vector [4, 5, 7]), none, none⟩,
          ⟨none, none, none⟩] := by decide

/-- Modelled from the spec: the source notebook contains only the node
classes; the graph driver of §4.2 (topological forward sweep, seeding,
reverse backward sweep) is described in the spec but absent from the
source.  `runForward g n s` runs `forward` on nodes `0, …, n-1` in index
order (graphs here are wired so that index order is a topological order). -/
def runForward (g : Graph) : Nat → GState → Option GState
  | 0, s => some s
  | n + 1, s => (runForward g n s).bind fun s1 => forwardNode g s1 n

/-- Modelled from the spec: the reverse sweep of the graph driver — runs
`backward` on nodes `n-1, …, 0`, the exact reverse of the forward order. -/
def runBackward (g : Graph) : Nat → GState → Option GState
  | 0, s => some s
  | n + 1, s => (backwardNode g s n).bind (runBackward g n)

/-- Modelled from the spec: the driver seeds the designated output node's
`d_out` with the scalar 1 between the two sweeps. -/
def seed (s : GState) (o : Nat) : Option GState := do
  let st ← s[o]?
  some (List.set s o { st with d_out := some (.scalar 1) })

/-- Modelled from the spec: one full evaluation cycle of the graph driver
(§4.2) with designated output node `o`. -/
def cycle (g : Graph) (o : Nat) (s : GState) : Option GState := do
  let s1 ← runForward g g.length s
  let s2 ← seed s1 o
  runBackward g g.length s2

/-- The two-leaf `SquaredL2DistanceNode` scenario graph: leaves `a`, `b`
and distance node `d = Σ(a-b)²`. -/
def sqDistGraph : Graph := [.value, .value, .squaredL2Distance 0 1]

/-- Initial state for `sqDistGraph`: `a.out = [1,2,3]`, `b.out = [4,5,7]`. -/
def sqDistInit : GState :=
  [⟨some (.vector [1, 2, 3]), none, none⟩,
   ⟨some (.vector [4, 5, 7]), none, none⟩,
   ⟨none, none, none⟩]

/-- C4: with Leaf `a.out = [1,2,3]` and `b.out = [4,5,7]`, running forward
on `a`, `b`, `d`, seeding `d.d_out = 1` and running backward gives
`d.out = 34`, `a.d_out = [-6,-6,-8]`, `b.d_out = [6,6,8]`. -/
theorem sqDist_scenario :
    cycle sqDistGraph 2 sqDistInit =
      some
        [⟨some (.vector [1, 2, 3]), some (.vector [-6, -6, -8]), none⟩,
         ⟨some (.vector [4, 5, 7]), some (.vector [6, 6, 8]), none⟩,
         ⟨some (.scalar 34), some (.scalar 1), some (.vector [-3, -3, -4])⟩] := by
  decide

/-- The `VectorScalarAffineNode` scenario graph: leaves `x`, `w`, `b` and
the affine node `dot(x,w) + b`. -/
def vsaGraph : Graph := [.value, .value, .value, .vectorScalarAffine 0 1 2]

/-- Initial state for `vsaGraph`: `x.out = [1,0]`, `w.out = [2,3]`,
`b.out = 5`. -/
def vsaInit : GState :=
  [⟨some (.vector [1, 0]), none, none⟩,
   ⟨some (.vector [2, 3]), none, none⟩,
   ⟨some (.scalar 5), none, none⟩,
   ⟨none, none, none⟩]

/-- C5: with `x.out = [1,0]`, `w.out = [2,3]`, `b.out = 5`, forward on all
nodes gives the affine node `out = 7`; seeding its `d_out = 1` and running
backward gives `x.d_out = [2,3]`, `w.d_out = [1,0]`, `b.d_out = 1`. -/
theorem vsa_scenario :
    cycle vsaGraph 3 vsaInit =
      some
        [⟨some (.vector [1, 0]), some (.vector [2, 3]), none⟩,
         ⟨some (.vector [2, 3]), some (.vector [1, 0]), none⟩,
         ⟨some (.scalar 5), some (.scalar 1), none⟩,
         ⟨some (.scalar 7), some (.scalar 1), none⟩] := by
  decide

/-- An `L2NormPenaltyNode` with construction parameter `l2_reg = 2` over a
leaf `w`. -/
def l2Graph : Graph := [.value, .l2NormPenalty 2 0]

/-- Initial state for `l2Graph`: `w.out = [1,2,3]`. -/
def l2Init : GState := [⟨some (.vector [1, 2, 3]), none, none⟩, ⟨none, none, none⟩]

/-- C1 (code bug): with `l2_reg = 2` and `w.out = [1,2,3]`, the source's
`L2NormPenaltyNode.forward` stores `out = sum(w²) = 14`, not
`λ·sum(w²) = 28` as the class docstring and the spec require — the code
never multiplies by `l2_reg`. -/
theorem l2NormPenalty_forward_drops_l2_reg :
    forwardNode l2Graph l2Init 1 =
      some
        [⟨some (.vector [1, 2, 3]), none, none⟩,
         ⟨some (.scalar 14), some (.scalar 0), none⟩] ∧
    Tensor.scalar 14 ≠ Tensor.scalar (2 * 14) := by
  constructor
  · decide
  · decide

/-- C2 (code bug): with `l2_reg = 2`, `w.out = [1,2,3]` and `d_out = 1`
seeded on the penalty node, the source's `L2NormPenaltyNode.backward` adds
`d_out·2·w = [2,4,6]` into `w.d_out`, not `d_out·2·λ·w = [4,8,12]` as the
docstring and the spec require — the factor `l2_reg` is missing. -/
theorem l2NormPenalty_backward_drops_l2_reg :
    cycle l2Graph 1 l2Init =
      some
        [⟨some (.vector [1, 2, 3]), some (.vector [2, 4, 6]), none⟩,
         ⟨some (.scalar 14), some (.scalar 1), none⟩] ∧
    Tensor.vector [2, 4, 6] ≠ Tensor.vector [4, 8, 12] := by
  constructor
  · decide
  · decide

/-- C3 (code bug): `L2NormPenaltyNode.get_predecessors` returns
`[self.w, self.l2_reg]` — the fixed scalar `l2_reg` appears in the
predecessor list even though it is not a node, contradicting the
constructor docstring (`l2_reg: a scalar value >=0 (not a node)`) and the
module contract (`get_predecessors - return a list of the node's
parents`). -/
theorem l2NormPenalty_get_predecessors_includes_scalar :
    get_predecessors (.l2NormPenalty 2 0) = [.node 0, .scalarParam 2] ∧
    PredItem.scalarParam 2 ∈ get_predecessors (.l2NormPenalty 2 0) ∧
    (∀ i : Nat, PredItem.scalarParam 2 ≠ PredItem.node i) ∧
    get_predecessors (.l2NormPenalty 2 0) ≠ [PredItem.node 0] := by
  refine ⟨by decide, by decide, fun i h => PredItem.noConfusion h, by decide⟩

theorem Tensor.zerosLike_shape (t : Tensor) : t.zerosLike.shape = t.shape := by
  cases t <;> simp [Tensor.zerosLike, Tensor.shape]

theorem Tensor.zerosLike_isZero (t : Tensor) : t.zerosLike.isZero := by
  cases t <;> simp [Tensor.zerosLike, Tensor.isZero]

/-- Inversion of a successful `forward()` call: it decomposes into looking
up the node, computing the new output from the predecessors, and writing
back `out`, the freshly zeroed `d_out`, and the cache. -/
theorem forwardNode_eq_some {g : Graph} {s : GState} {i : Nat} {s' : GState}
    (h : forwardNode g s i = some s') :
    ∃ k st o c, g[i]? = some k ∧ s[i]? = some st ∧
      computeForward s k st = some (o, c) ∧
      s' = List.set s i ⟨some o, some o.zerosLike, c⟩ := by
  simp only [forwardNode, Option.bind_eq_bind, Option.bind_eq_some] at h
  obtain ⟨k, hk, st, hst, ⟨o, c⟩, hoc, h⟩ := h
  simp only [Option.some.injEq] at h
  exact ⟨k, st, o, c, hk, hst, hoc, h.symm⟩

/-- C6: immediately after any successful `forward()` on any node variant,
that node's `d_out` is the all-zero tensor of exactly the same shape as
its `out`. -/
theorem forward_resets_d_out_to_zero_of_out_shape
    {g : Graph} {s : GState} {i : Nat} {s' : GState}
    (h : forwardNode g s i = some s') :
    ∃ st t, s'[i]? = some st ∧ st.out = some t ∧ st.d_out = some t.zerosLike ∧
      t.zerosLike.shape = t.shape ∧ t.zerosLike.isZero := by
  obtain ⟨k, st, o, c, _, hst, _, hs'⟩ := forwardNode_eq_some h
  have hi : i < s.length := (List.getElem?_eq_some.mp hst).1
  refine ⟨⟨some o, some o.zerosLike, c⟩, o, ?_, rfl, rfl,
    Tensor.zerosLike_shape o, Tensor.zerosLike_isZero o⟩
  subst hs'
  exact List.getElem?_set_self hi

/-- Concrete instance of C6: `forward` on the first leaf of the
squared-distance scenario. -/
theorem forward_resets_d_out_to_zero_of_out_shape_witness :
    ∃ st t,
      (([⟨some (.vector [1, 2, 3]), some (.vector [0, 0, 0]), none⟩,
         ⟨some (.vector [4, 5, 7]), none, none⟩,
         ⟨none, none, none⟩] : GState))[0]? = some st ∧
      st.out = some t ∧ st.d_out = some t.zerosLike ∧
      t.zerosLike.shape = t.shape ∧ t.zerosLike.isZero :=
  forward_resets_d_out_to_zero_of_out_shape
    (g := sqDistGraph) (s := sqDistInit) (i := 0) (by decide)

/-- Mutate only the `out` attribute of node `j` (modelling an external
`node.out = v` assignment between `forward` and `backward`). -/
def setOut (s : GState) (j : Nat) (v : Option Tensor) : GState :=
  match s[j]? with
  | some st => List.set s j { st with out := v }
  | none => s

theorem setOut_getElem? (s : GState) (j : Nat) (v : Option Tensor) (p : Nat) :
    (setOut s j v)[p]? =
      if p = j then (s[j]?).map (fun st => { st with out := v }) else s[p]? := by
  unfold setOut
  by_cases hpj : p = j
  · subst hpj
    cases hj : s[p]? with
    | none => simp [hj]
    | some stj =>
      have hlen : p < s.length := (List.getElem?_eq_some.mp hj).1
      simp [hj, List.getElem?_set_self hlen]
  · cases hj : s[j]? with
    | none => simp [hj, hpj]
    | some stj => simp [hj, hpj, List.getElem?_set_ne (fun h => hpj h.symm)]

/-- `+=`-ing a gradient into a predecessor commutes with mutating any
node's `out` attribute: `addIntoPred` neither reads nor writes `out`. -/
theorem addIntoPred_setOut (s : GState) (j : Nat) (v : Option Tensor) (p : Nat) (t : Tensor) :
    addIntoPred (setOut s j v) p t = (addIntoPred s p t).map fun r => setOut r j v := by
  unfold addIntoPred
  by_cases hpj : p = j
  · subst hpj
    cases hj : s[p]? with
    | none => simp [setOut, hj]
    | some stj =>
      have hlen : p < s.length := (List.getElem?_eq_some.mp hj).1
      cases hd : stj.d_out with
      | none => simp [setOut, hj, hd, List.getElem?_set, hlen]
      | some d =>
        cases hit : Tensor.iadd d t with
        | none => simp [setOut, hj, hd, hit, List.getElem?_set, hlen]
        | some d2 =>
          simp [setOut, hj, hd, hit, List.getElem?_set, hlen, List.set_set]
  · have hjp : ¬ j = p := fun h => hpj h.symm
    cases hj : s[j]? with
    | none =>
      have hs : setOut s j v = s := by unfold setOut; rw [hj]
      rw [hs]
      cases hp : s[p]? with
      | none => simp [hp]
      | some stp =>
        cases hd : stp.d_out with
        | none => simp [hp, hd]
        | some d =>
          cases hit : Tensor.iadd d t with
          | none => simp [hp, hd, hit]
          | some d2 =>
            simp [setOut, hp, hd, hit, List.getElem?_set, hpj, hj]
    | some stj =>
      have hjlen : j < s.length := (List.getElem?_eq_some.mp hj).1
      have hs : setOut s j v = List.set s j { stj with out := v } := by
        unfold setOut; rw [hj]
      rw [hs]
      cases hp : s[p]? with
      | none => simp [hp, List.getElem?_set, hjp]
      | some stp =>
        cases hd : stp.d_out with
        | none => simp [hp, hd, List.getElem?_set, hjp]
        | some d =>
          cases hit : Tensor.iadd d t with
          | none => simp [hp, hd, hit, List.getElem?_set, hjp]
          | some d2 =>
            simp only [Option.bind_eq_bind, List.getElem?_set, if_neg hjp, hp,
              Option.some_bind, hd, hit, Option.map_some', setOut,
              if_neg hpj, hjlen, if_pos, List.length_set]
            rw [List.set_comm _ _ s hjp, hj]

/-- C10: `SquaredL2DistanceNode.backward` computes its contributions from
the `a_minus_b` difference cached by the most recent `forward`, not from
the predecessors' current `out` values.  First conjunct: mutating any
node's `out` between `forward` and `backward` commutes with `backward` —
the gradients it writes are unchanged.  Second conjunct: the updates are
exactly `d_out * 2 * a_minus_b` added into `a.d_out` followed by
`-d_out * 2 * a_minus_b` added into `b.d_out`, expressions of the cached
difference only. -/
theorem sqL2_backward_uses_cached_difference
    {g : Graph} {i a b : Nat} (s : GState) (j : Nat) (v : Option Tensor)
    (hk : g[i]? = some (.squaredL2Distance a b)) :
    backwardNode g (setOut s j v) i =
      Option.map (fun r => setOut r j v) (backwardNode g s i) ∧
    ∀ st d c s2, s[i]? = some st → st.d_out = some d → st.a_minus_b = some c →
      backwardNode g s i = some s2 →
      ∃ da db s1,
        (Tensor.mul d (Tensor.scalar 2)).bind (fun u => Tensor.mul u c) = some da ∧
        (Tensor.mul (Tensor.neg d) (Tensor.scalar 2)).bind (fun u => Tensor.mul u c) =
          some db ∧
        addIntoPred s a da = some s1 ∧ addIntoPred s1 b db = some s2 := by
  constructor
  · unfold backwardNode
    rw [hk]
    simp only [Option.bind_eq_bind, Option.some_bind]
    rw [setOut_getElem?]
    cases hsi : s[i]? with
    | none =>
      by_cases hij : i = j
      · subst hij; simp [hsi]
      · simp [hsi, hij]
    | some st =>
      have hfields :
          (if i = j then Option.map (fun t => { t with out := v }) s[j]? else some st) =
            some (if i = j then { st with out := v } else st) := by
        by_cases hij : i = j
        · subst hij; simp [hsi]
        · simp [hij]
      rw [hfields]
      simp only [Option.some_bind]
      have hdo : (if i = j then { st with out := v } else st).d_out = st.d_out := by
        by_cases hij : i = j <;> simp [hij]
      have hab : (if i = j then { st with out := v } else st).a_minus_b = st.a_minus_b := by
        by_cases hij : i = j <;> simp [hij]
      rw [hdo, hab]
      cases hd : st.d_out with
      | none => simp
      | some d =>
        cases hc : st.a_minus_b with
        | none => simp
        | some c =>
          simp only [Option.some_bind]
          cases hm1 : Tensor.mul d (Tensor.scalar 2) with
          | none => simp
          | some t1 =>
            simp only [Option.some_bind]
            cases hda : Tensor.mul t1 c with
            | none => simp
            | some da =>
              simp only [Option.some_bind]
              cases hm2 : Tensor.mul (Tensor.neg d) (Tensor.scalar 2) with
              | none => simp
              | some t2 =>
                simp only [Option.some_bind]
                cases hdb : Tensor.mul t2 c with
                | none => simp
                | some db =>
                  simp only [Option.some_bind]
                  rw [addIntoPred_setOut]
                  cases h1 : addIntoPred s a da with
                  | none => simp
                  | some s1 => simp [addIntoPred_setOut]
  · intro st d c s2 hst hd hc hback
    unfold backwardNode at hback
    rw [hk, hst] at hback
    simp only [Option.bind_eq_bind, Option.some_bind, hd, hc] at hback
    simp only [Option.bind_eq_some] at hback
    obtain ⟨t1, ht1, da, hda, t2, ht2, db, hdb, s1, h1, h2⟩ := hback
    refine ⟨da, db, s1, ?_, ?_, h1, h2⟩
    · rw [ht1]; simpa using hda
    · rw [ht2]; simpa using hdb

/-- The state of the squared-distance scenario after running `forward` on
all three nodes and seeding the distance node's `d_out` with 1. -/
def sqDistForwarded : GState :=
  [⟨some (.vector [1, 2, 3]), some (.vector [0, 0, 0]), none⟩,
   ⟨some (.vector [4, 5, 7]), some (.vector [0, 0, 0]), none⟩,
   ⟨some (.scalar 34), some (.scalar 1), some (.vector [-3, -3, -4])⟩]

/-- Concrete instance of C10: mutating `a.out` to `[9,9,9]` after forward
leaves the gradients written by the distance node's backward unchanged. -/
theorem sqL2_backward_uses_cached_difference_witness :
    (backwardNode sqDistGraph (setOut sqDistForwarded 0 (some (.vector [9, 9, 9]))) 2 =
      Option.map (fun r => setOut r 0 (some (.vector [9, 9, 9])))
        (backwardNode sqDistGraph sqDistForwarded 2)) ∧
    (∀ st d c s2, sqDistForwarded[2]? = some st → st.d_out = some d →
      st.a_minus_b = some c → backwardNode sqDistGraph sqDistForwarded 2 = some s2 →
      ∃ da db s1,
        (Tensor.mul d (Tensor.scalar 2)).bind (fun u => Tensor.mul u c) = some da ∧
        (Tensor.mul (Tensor.neg d) (Tensor.scalar 2)).bind (fun u => Tensor.mul u c) =
          some db ∧
        addIntoPred sqDistForwarded 0 da = some s1 ∧ addIntoPred s1 1 db = some s2) :=
  sqL2_backward_uses_cached_difference sqDistForwarded 0 (some (.vector [9, 9, 9]))
    (by decide)

/-- Inversion of a successful `+=` into a predecessor: the predecessor's
`d_out` becomes the elementwise sum of its old value and the contribution
(same shape), and no other node's attributes change. -/
theorem addIntoPred_adds {s : GState} {j : Nat} {t : Tensor} {s' : GState}
    (h : addIntoPred s j t = some s') :
    ∃ st d d2, s[j]? = some st ∧ st.d_out = some d ∧
      Tensor.add d t = some d2 ∧ d2.shape = d.shape ∧
      s' = List.set s j { st with d_out := some d2 } ∧
      ∀ m, m ≠ j → s'[m]? = s[m]? := by
  unfold addIntoPred at h
  simp only [Option.bind_eq_bind, Option.bind_eq_some] at h
  obtain ⟨st, hst, d, hd, d2, hi, h⟩ := h
  simp only [Option.some.injEq] at h
  unfold Tensor.iadd at hi
  simp only [Option.bind_eq_some] at hi
  obtain ⟨u, hu, hif⟩ := hi
  by_cases hsh : u.shape = d.shape
  · rw [if_pos hsh] at hif
    cases hif
    refine ⟨st, d, d2, hst, hd, hu, hsh, h.symm, fun m hm => ?_⟩
    rw [← h]
    exact List.getElem?_set_ne (fun hh => hm hh.symm)
  · rw [if_neg hsh] at hif
    cases hif

/-- Inversion of `SumNode.backward`: it is exactly `a.d_out += d_out`
followed by `b.d_out += d_out`. -/
theorem backwardNode_sumNode_eq {g : Graph} {s : GState} {i a b : Nat} {s' : GState}
    (hk : g[i]? = some (.sumNode a b)) (h : backwardNode g s i = some s') :
    ∃ st d s1, s[i]? = some st ∧ st.d_out = some d ∧
      addIntoPred s a d = some s1 ∧ addIntoPred s1 b d = some s' := by
  unfold backwardNode at h
  rw [hk] at h
  simp only [Option.bind_eq_bind, Option.some_bind, Option.bind_eq_some] at h
  obtain ⟨st, hst, d, hd, s1, h1, h2⟩ := h
  exact ⟨st, d, s1, hst, hd, h1, h2⟩

/-- Inversion of `VectorScalarAffineNode.backward`: it is exactly
`x.d_out += d_out*w.out`, then `w.d_out += d_out*x.out`, then
`b.d_out += d_out`. -/
theorem backwardNode_vsa_eq {g : Graph} {s : GState} {i x w b : Nat} {s' : GState}
    (hk : g[i]? = some (.vectorScalarAffine x w b)) (h : backwardNode g s i = some s') :
    ∃ st d stx xo stw wo dx dw s1 s2,
      s[i]? = some st ∧ st.d_out = some d ∧
      s[x]? = some stx ∧ stx.out = some xo ∧
      s[w]? = some stw ∧ stw.out = some wo ∧
      Tensor.mul d wo = some dx ∧ Tensor.mul d xo = some dw ∧
      addIntoPred s x dx = some s1 ∧ addIntoPred s1 w dw = some s2 ∧
      addIntoPred s2 b d = some s' := by
  unfold backwardNode at h
  rw [hk] at h
  simp only [Option.bind_eq_bind, Option.some_bind, Option.bind_eq_some] at h
  obtain ⟨st, hst, d, hd, stx, hsx, xo, hxo, stw, hsw, wo, hwo, dx, hdx, dw, hdw,
    s1, h1, s2, h2, h3⟩ := h
  exact ⟨st, d, stx, xo, stw, wo, dx, dw, s1, s2, hst, hd, hsx, hxo, hsw, hwo,
    hdx, hdw, h1, h2, h3⟩

/-- Inversion of `SquaredL2DistanceNode.backward`: it is exactly
`a.d_out += d_out*2*a_minus_b` then `b.d_out += (-d_out)*2*a_minus_b`,
both computed from the cached difference. -/
theorem backwardNode_sqL2_eq {g : Graph} {s : GState} {i a b : Nat} {s' : GState}
    (hk : g[i]? = some (.squaredL2Distance a b)) (h : backwardNode g s i = some s') :
    ∃ st d c t1 da t2 db s1,
      s[i]? = some st ∧ st.d_out = some d ∧ st.a_minus_b = some c ∧
      Tensor.mul d (Tensor.scalar 2) = some t1 ∧ Tensor.mul t1 c = some da ∧
      Tensor.mul (Tensor.neg d) (Tensor.scalar 2) = some t2 ∧ Tensor.mul t2 c = some db ∧
      addIntoPred s a da = some s1 ∧ addIntoPred s1 b db = some s' := by
  unfold backwardNode at h
  rw [hk] at h
  simp only [Option.bind_eq_bind, Option.some_bind, Option.bind_eq_some] at h
  obtain ⟨st, hst, d, hd, c, hc, t1, ht1, da, hda, t2, ht2, db, hdb, s1, h1, h2⟩ := h
  exact ⟨st, d, c, t1, da, t2, db, s1, hst, hd, hc, ht1, hda, ht2, hdb, h1, h2⟩

/-- Inversion of `L2NormPenaltyNode.backward`: it is exactly
`w.d_out += d_out*2*w.out` (no `l2_reg` factor appears). -/
theorem backwardNode_l2_eq {g : Graph} {s : GState} {i w : Nat} {l : ℤ} {s' : GState}
    (hk : g[i]? = some (.l2NormPenalty l w)) (h : backwardNode g s i = some s') :
    ∃ st d stw wo t1 dw,
      s[i]? = some st ∧ st.d_out = some d ∧
      s[w]? = some stw ∧ stw.out = some wo ∧
      Tensor.mul d (Tensor.scalar 2) = some t1 ∧ Tensor.mul t1 wo = some dw ∧
      addIntoPred s w dw = some s' := by
  unfold backwardNode at h
  rw [hk] at h
  simp only [Option.bind_eq_bind, Option.some_bind, Option.bind_eq_some] at h
  obtain ⟨st, hst, d, hd, stw, hsw, wo, hwo, t1, ht1, dw, hdw, h1⟩ := h
  exact ⟨st, d, stw, wo, t1, dw, hst, hd, hsw, hwo, ht1, hdw, h1⟩

/-- The accumulation test graph from the spec: leaf `w` feeds two operator
nodes (an L2 penalty and a squared distance against leaf `z`), which feed
a final `SumNode`. -/
def diamondGraph : Graph :=
  [.value, .value, .l2NormPenalty 3 0, .squaredL2Distance 0 1, .sumNode 2 3]

/-- Initial state for `diamondGraph`: `w.out = [1,2]`, `z.out = [3,5]`. -/
def diamondInit : GState :=
  [⟨some (.vector [1, 2]), none, none⟩, ⟨some (.vector [3, 5]), none, none⟩,
   ⟨none, none, none⟩, ⟨none, none, none⟩, ⟨none, none, none⟩]

/-- `diamondGraph` after `forward` on all nodes, seeding the sum node's
`d_out` with 1, and `backward` on the sum node only — both consumers now
hold `d_out = 1` and `w.d_out` is still zero. -/
def sDiamondMid : GState :=
  [⟨some (.vector [1, 2]), some (.vector [0, 0]), none⟩,
   ⟨some (.vector [3, 5]), some (.vector [0, 0]), none⟩,
   ⟨some (.scalar 5), some (.scalar 1), none⟩,
   ⟨some (.scalar 13), some (.scalar 1), some (.vector [-2, -3])⟩,
   ⟨some (.scalar 18), some (.scalar 1), none⟩]

/-- C7: `backward` only ever adds into a predecessor's `d_out`, never
overwrites it.  Conjuncts: (1) a successful `+=` makes the predecessor's
`d_out` the elementwise sum of its previous value and the contribution and
leaves every other node untouched; (2)–(5) each implemented operator
node's `backward` is exactly a sequence of such `+=` calls carrying its
local chain-rule contributions; (6) on the two-consumer diamond graph the
shared leaf's final `d_out` equals the exact sum of the two consumers'
individual contributions (`[-4,-6] + [2,4] = [-2,-2]`). -/
theorem backward_adds_never_overwrites :
    (∀ s j t s', addIntoPred s j t = some s' →
      ∃ st d d2, s[j]? = some st ∧ st.d_out = some d ∧
        Tensor.add d t = some d2 ∧ d2.shape = d.shape ∧
        s' = List.set s j { st with d_out := some d2 } ∧
        ∀ m, m ≠ j → s'[m]? = s[m]?) ∧
    (∀ g s i a b s', g[i]? = some (.sumNode a b) → backwardNode g s i = some s' →
      ∃ st d s1, s[i]? = some st ∧ st.d_out = some d ∧
        addIntoPred s a d = some s1 ∧ addIntoPred s1 b d = some s') ∧
    (∀ g s i x w b s', g[i]? = some (.vectorScalarAffine x w b) →
      backwardNode g s i = some s' →
      ∃ st d stx xo stw wo dx dw s1 s2,
        s[i]? = some st ∧ st.d_out = some d ∧
        s[x]? = some stx ∧ stx.out = some xo ∧
        s[w]? = some stw ∧ stw.out = some wo ∧
        Tensor.mul d wo = some dx ∧ Tensor.mul d xo = some dw ∧
        addIntoPred s x dx = some s1 ∧ addIntoPred s1 w dw = some s2 ∧
        addIntoPred s2 b d = some s') ∧
    (∀ g s i a b s', g[i]? = some (.squaredL2Distance a b) →
      backwardNode g s i = some s' →
      ∃ st d c t1 da t2 db s1,
        s[i]? = some st ∧ st.d_out = some d ∧ st.a_minus_b = some c ∧
        Tensor.mul d (Tensor.scalar 2) = some t1 ∧ Tensor.mul t1 c = some da ∧
        Tensor.mul (Tensor.neg d) (Tensor.scalar 2) = some t2 ∧
        Tensor.mul t2 c = some db ∧
        addIntoPred s a da = some s1 ∧ addIntoPred s1 b db = some s') ∧
    (∀ g s i w l s', g[i]? = some (.l2NormPenalty l w) → backwardNode g s i = some s' →
      ∃ st d stw wo t1 dw,
        s[i]? = some st ∧ st.d_out = some d ∧
        s[w]? = some stw ∧ stw.out = some wo ∧
        Tensor.mul d (Tensor.scalar 2) = some t1 ∧ Tensor.mul t1 wo = some dw ∧
        addIntoPred s w dw = some s') ∧
    (((backwardNode diamondGraph sDiamondMid 3).bind
        (fun r => r[0]?)).map NodeState.d_out = some (some (.vector [-4, -6])) ∧
     ((backwardNode diamondGraph sDiamondMid 2).bind
        (fun r => r[0]?)).map NodeState.d_out = some (some (.vector [2, 4])) ∧
     ((cycle diamondGraph 4 diamondInit).bind
        (fun r => r[0]?)).map NodeState.d_out = some (some (.vector [-2, -2])) ∧
     Tensor.add (.vector [-4, -6]) (.vector [2, 4]) = some (.vector [-2, -2])) := by
  refine ⟨fun s j t s' h => addIntoPred_adds h,
    fun g s i a b s' hk h => backwardNode_sumNode_eq hk h,
    fun g s i x w b s' hk h => backwardNode_vsa_eq hk h,
    fun g s i a b s' hk h => backwardNode_sqL2_eq hk h,
    fun g s i w l s' hk h => backwardNode_l2_eq hk h,
    by decide, by decide, by decide, by decide⟩

/-- Modelled from the spec: the source's `AffineNode` class body is just a
`## TODO` placeholder, so its semantics are taken from §4.1 of the spec.
`matVec W x` is the matrix–vector product `W·x`, `W` given as a list of
rows. -/
def matVec (W : List (List ℤ)) (x : List ℤ) : List ℤ :=
  W.map fun row => (List.zipWith (· * ·) row x).sum

/-- Elementwise sum of two equal-length vectors. -/
def vecAdd (u v : List ℤ) : List ℤ := List.zipWith (· + ·) u v

/-- Modelled from the spec: `AffineNode.forward` — `out = W·x + b`, under
§4.1's shape contract (`W` is `(m,d)`, `x` has length `d`, `b` length `m`);
a shape violation is an error. -/
def affineForward (W : List (List ℤ)) (x b : List ℤ) : Option (List ℤ) :=
  if (∀ row ∈ W, row.length = x.length) ∧ W.length = b.length then
    some (vecAdd (matVec W x) b)
  else none

/-- `outer d x`: the outer-product matrix `d·xᵗ`. -/
def outer (d x : List ℤ) : List (List ℤ) := d.map fun di => x.map fun xj => di * xj

/-- `Wᵗ·d` as a length-`n` vector, accumulated row by row. -/
def matTvec (W : List (List ℤ)) (d : List ℤ) (n : Nat) : List ℤ :=
  match W, d with
  | row :: W, di :: d => vecAdd (row.map fun wij => di * wij) (matTvec W d n)
  | _, _ => List.replicate n 0

/-- Elementwise sum of two matrices. -/
def matAdd (A B : List (List ℤ)) : List (List ℤ) := List.zipWith vecAdd A B

/-- Modelled from the spec: `AffineNode.backward` — add `outer(d_out, x)`
into `W.d_out`, `Wᵗ·d_out` into `x.d_out`, and `d_out` into `b.d_out`;
the three accumulators are passed and returned explicitly. -/
def affineBackward (W : List (List ℤ)) (x d : List ℤ)
    (dW : List (List ℤ)) (dx db : List ℤ) :
    List (List ℤ) × List ℤ × List ℤ :=
  (matAdd dW (outer d x), vecAdd dx (matTvec W d x.length), vecAdd db d)

theorem vecAdd_getD (u v : List ℤ) (j : Nat) (hu : j < u.length) (hv : j < v.length) :
    (vecAdd u v).getD j 0 = u.getD j 0 + v.getD j 0 := by
  induction u generalizing v j with
  | nil => simp at hu
  | cons a u ih =>
    cases v with
    | nil => simp at hv
    | cons c v =>
      cases j with
      | zero => simp [vecAdd]
      | succ j =>
        have := ih v j (by simpa using hu) (by simpa using hv)
        simpa [vecAdd] using this

theorem zipWith_mul_sum (u v : List ℤ) (h : u.length = v.length) :
    (List.zipWith (· * ·) u v).sum =
      ∑ j ∈ Finset.range u.length, u.getD j 0 * v.getD j 0 := by
  induction u generalizing v with
  | nil => simp
  | cons a u ih =>
    cases v with
    | nil => simp at h
    | cons c v =>
      rw [List.length_cons, Finset.sum_range_succ']
      simp only [List.getD_cons_succ, List.getD_cons_zero, List.zipWith_cons_cons,
        List.sum_cons]
      rw [ih v (by simpa using h)]
      ring

theorem matTvec_length (W : List (List ℤ)) (d : List ℤ) (n : Nat)
    (hrow : ∀ row ∈ W, row.length = n) : (matTvec W d n).length = n := by
  induction W generalizing d with
  | nil => simp [matTvec]
  | cons row W ih =>
    cases d with
    | nil => simp [matTvec]
    | cons di d =>
      have hr : row.length = n := hrow row (by simp)
      have ihl := ih d (fun r hr2 => hrow r (by simp [hr2]))
      simp [matTvec, vecAdd, hr, ihl]

theorem getD_map_int (f : ℤ → ℤ) (l : List ℤ) (j : Nat) (hj : j < l.length) :
    (l.map f).getD j 0 = f (l.getD j 0) := by
  simp [List.getD_eq_getElem?_getD, List.getElem?_map, List.getElem?_eq_getElem hj]

theorem matTvec_getD (W : List (List ℤ)) (d : List ℤ) (n j : Nat)
    (hlen : d.length = W.length) (hrow : ∀ row ∈ W, row.length = n) (hj : j < n) :
    (matTvec W d n).getD j 0 =
      ∑ i ∈ Finset.range W.length, d.getD i 0 * (W.getD i []).getD j 0 := by
  induction W generalizing d with
  | nil =>
    simp [matTvec, List.getD_eq_getElem?_getD, List.getElem?_replicate, hj]
  | cons row W ih =>
    cases d with
    | nil => simp at hlen
    | cons di d =>
      have hr : row.length = n := hrow row (by simp)
      have hlen2 : d.length = W.length := by simpa using hlen
      have hrow2 : ∀ r ∈ W, r.length = n := fun r hr2 => hrow r (by simp [hr2])
      have hmt : (matTvec W d n).length = n := matTvec_length W d n hrow2
      rw [List.length_cons, Finset.sum_range_succ']
      show (vecAdd (row.map fun wij => di * wij) (matTvec W d n)).getD j 0 = _
      rw [vecAdd_getD _ _ j (by simpa [hr] using hj) (by simpa [hmt] using hj)]
      rw [ih d hlen2 hrow2]
      rw [getD_map_int _ _ _ (by simpa [hr] using hj)]
      simp only [List.getD_cons_succ, List.getD_cons_zero]
      ring

theorem matVec_getD (W : List (List ℤ)) (x : List ℤ) (i : Nat) (hi : i < W.length) :
    (matVec W x).getD i 0 = (List.zipWith (· * ·) (W.getD i []) x).sum := by
  simp [matVec, List.getD_eq_getElem?_getD, List.getElem?_map, List.getElem?_eq_getElem hi]

theorem matAdd_getD (A B : List (List ℤ)) (i : Nat) (hA : i < A.length) (hB : i < B.length) :
    (matAdd A B).getD i [] = vecAdd (A.getD i []) (B.getD i []) := by
  induction A generalizing B i with
  | nil => simp at hA
  | cons a A ih =>
    cases B with
    | nil => simp at hB
    | cons c B =>
      cases i with
      | zero => simp [matAdd]
      | succ i =>
        have := ih B i (by simpa using hA) (by simpa using hB)
        simpa [matAdd] using this

theorem outer_getD (d x : List ℤ) (i : Nat) (hi : i < d.length) :
    (outer d x).getD i [] = x.map fun xj => d.getD i 0 * xj := by
  simp [outer, List.getD_eq_getElem?_getD, List.getElem?_map, List.getElem?_eq_getElem hi]

theorem getD_eq_getElem_int (l : List ℤ) (i : Nat) (hi : i < l.length) :
    l.getD i 0 = l[i] := by
  simp [List.getD_eq_getElem?_getD, List.getElem?_eq_getElem hi]

theorem getD_eq_getElem_list (l : List (List ℤ)) (i : Nat) (hi : i < l.length) :
    l.getD i [] = l[i] := by
  simp [List.getD_eq_getElem?_getD, List.getElem?_eq_getElem hi]

/-- C9 (modelled from the spec — `AffineNode` is an unimplemented `## TODO`
in the source): with `W` an `(m,d)` matrix, `x` a length-`d` vector and
`b` a length-`m` vector, `forward` returns `W·x + b` entrywise
(`yᵢ = Σⱼ Wᵢⱼ·xⱼ + bᵢ`), and `backward` adds `outer(d_out, x)` into
`W.d_out` (`+ dᵢ·xⱼ`), `Wᵗ·d_out` into `x.d_out` (`+ Σᵢ dᵢ·Wᵢⱼ`), and
`d_out` into `b.d_out` (`+ dᵢ`). -/
theorem affine_forward_backward_match_spec
    (W dW : List (List ℤ)) (x b d dx db : List ℤ)
    (hW : ∀ row ∈ W, row.length = x.length) (hb : W.length = b.length)
    (hd : d.length = W.length) (hdW : dW.length = W.length)
    (hdWr : ∀ row ∈ dW, row.length = x.length)
    (hdx : dx.length = x.length) (hdb : db.length = b.length) :
    ∃ y, affineForward W x b = some y ∧ y.length = W.length ∧
      (∀ i, i < W.length →
        y.getD i 0 =
          (∑ j ∈ Finset.range x.length, (W.getD i []).getD j 0 * x.getD j 0) +
            b.getD i 0) ∧
      (∀ i j, i < W.length → j < x.length →
        ((affineBackward W x d dW dx db).1.getD i []).getD j 0 =
          (dW.getD i []).getD j 0 + d.getD i 0 * x.getD j 0) ∧
      (∀ j, j < x.length →
        (affineBackward W x d dW dx db).2.1.getD j 0 =
          dx.getD j 0 + ∑ i ∈ Finset.range W.length, d.getD i 0 * (W.getD i []).getD j 0) ∧
      (∀ i, i < b.length →
        (affineBackward W x d dW dx db).2.2.getD i 0 = db.getD i 0 + d.getD i 0) := by
  have hmv : (matVec W x).length = W.length := by simp [matVec]
  refine ⟨vecAdd (matVec W x) b, ?_, ?_, ?_, ?_, ?_, ?_⟩
  · unfold affineForward
    rw [if_pos ⟨hW, hb⟩]
  · simp [vecAdd, hmv, hb]
  · intro i hi
    have hrowmem : W.getD i [] ∈ W := by
      rw [getD_eq_getElem_list W i hi]
      exact List.getElem_mem _
    rw [vecAdd_getD _ _ i (by simpa [hmv] using hi) (by omega),
      matVec_getD W x i hi, zipWith_mul_sum _ _ (hW _ hrowmem)]
    rw [hW _ hrowmem]
  · intro i j hi hj
    have hout : (outer d x).length = d.length := by simp [outer]
    rw [show (affineBackward W x d dW dx db).1 = matAdd dW (outer d x) from rfl]
    rw [matAdd_getD dW (outer d x) i (by omega) (by omega)]
    have hdWi : dW.getD i [] ∈ dW := by
      rw [getD_eq_getElem_list dW i (by omega)]
      exact List.getElem_mem _
    rw [vecAdd_getD _ _ j (by rw [hdWr _ hdWi]; exact hj) ?_]
    · rw [outer_getD d x i (by omega), getD_map_int _ _ _ hj]
    · rw [outer_getD d x i (by omega)]
      simpa using hj
  · intro j hj
    have hmt : (matTvec W d x.length).length = x.length := matTvec_length W d x.length hW
    rw [show (affineBackward W x d dW dx db).2.1 = vecAdd dx (matTvec W d x.length) from rfl]
    rw [vecAdd_getD _ _ j (by omega) (by omega),
      matTvec_getD W d x.length j hd hW hj]
  · intro i hi
    rw [show (affineBackward W x d dW dx db).2.2 = vecAdd db d from rfl]
    rw [vecAdd_getD _ _ i (by omega) (by omega)]

/-- Concrete instance of C9 with `W = [[1,2],[3,4]]`, `x = [5,6]`,
`b = [7,8]`, upstream gradient `d = [1,2]`, zero accumulators. -/
theorem affine_forward_backward_match_spec_witness :
    ∃ y, affineForward [[1, 2], [3, 4]] [5, 6] [7, 8] = some y ∧
      y.length = ([[1, 2], [3, 4]] : List (List ℤ)).length ∧
      (∀ i, i < ([[1, 2], [3, 4]] : List (List ℤ)).length →
        y.getD i 0 =
          (∑ j ∈ Finset.range ([5, 6] : List ℤ).length,
            (([[1, 2], [3, 4]] : List (List ℤ)).getD i []).getD j 0 *
              ([5, 6] : List ℤ).getD j 0) + ([7, 8] : List ℤ).getD i 0) ∧
      (∀ i j, i < ([[1, 2], [3, 4]] : List (List ℤ)).length →
        j < ([5, 6] : List ℤ).length →
        ((affineBackward [[1, 2], [3, 4]] [5, 6] [1, 2] [[0, 0], [0, 0]]
            [0, 0] [0, 0]).1.getD i []).getD j 0 =
          (([[0, 0], [0, 0]] : List (List ℤ)).getD i []).getD j 0 +
            ([1, 2] : List ℤ).getD i 0 * ([5, 6] : List ℤ).getD j 0) ∧
      (∀ j, j < ([5, 6] : List ℤ).length →
        (affineBackward [[1, 2], [3, 4]] [5, 6] [1, 2] [[0, 0], [0, 0]]
            [0, 0] [0, 0]).2.1.getD j 0 =
          ([0, 0] : List ℤ).getD j 0 +
            ∑ i ∈ Finset.range ([[1, 2], [3, 4]] : List (List ℤ)).length,
              ([1, 2] : List ℤ).getD i 0 *
                (([[1, 2], [3, 4]] : List (List ℤ)).getD i []).getD j 0) ∧
      (∀ i, i < ([7, 8] : List ℤ).length →
        (affineBackward [[1, 2], [3, 4]] [5, 6] [1, 2] [[0, 0], [0, 0]]
            [0, 0] [0, 0]).2.2.getD i 0 =
          ([0, 0] : List ℤ).getD i 0 + ([1, 2] : List ℤ).getD i 0) :=
  affine_forward_backward_match_spec [[1, 2], [3, 4]] [[0, 0], [0, 0]] [5, 6] [7, 8]
    [1, 2] [0, 0] [0, 0] (by decide) (by decide) (by decide) (by decide) (by decide)
    (by decide) (by decide)

/-- The indices a node's `forward`/`backward` actually dereference (for
`L2NormPenaltyNode` only the node `w` — the scalar is not dereferenced). -/
def predIdx : NodeKind → List Nat
  | .value => []
  | .vectorScalarAffine x w b => [x, w, b]
  | .squaredL2Distance a b => [a, b]
  | .l2NormPenalty _ w => [w]
  | .sumNode a b => [a, b]

/-- The graph is wired so that index order is a topological order: every
predecessor index is strictly below the node's own index (the spec's DAG
invariant, with the driver evaluating in index order). -/
def TopoOK (g : Graph) : Prop :=
  ∀ i, (h : i < g.length) → ∀ j ∈ predIdx g[i], j < i

instance (g : Graph) : Decidable (TopoOK g) :=
  Nat.decidableBallLT _ _

/-- The per-node attributes that survive one full forward/backward cycle:
a leaf's `out` and cache are untouched; an operator node's cache is
untouched unless it is a `SquaredL2DistanceNode` (which rewrites its whole
state deterministically). -/
def persistEq (k : NodeKind) (a b : NodeState) : Prop :=
  match k with
  | .value => a.out = b.out ∧ a.a_minus_b = b.a_minus_b
  | .squaredL2Distance _ _ => True
  | _ => a.a_minus_b = b.a_minus_b

theorem persistEq_refl (k : NodeKind) (a : NodeState) : persistEq k a a := by
  cases k <;> simp [persistEq]

theorem persistEq_symm {k : NodeKind} {a b : NodeState} (h : persistEq k a b) :
    persistEq k b a := by
  cases k <;> simp_all [persistEq]

theorem persistEq_trans {k : NodeKind} {a b c : NodeState}
    (h1 : persistEq k a b) (h2 : persistEq k b c) : persistEq k a c := by
  cases k <;> simp_all [persistEq]

/-- Two graph states agree on all cycle-persistent attributes. -/
def AgreeP (g : Graph) (s s' : GState) : Prop :=
  s.length = g.length ∧ s'.length = g.length ∧
  ∀ (i : Nat) (k : NodeKind) (a b : NodeState),
    g[i]? = some k → s[i]? = some a → s'[i]? = some b → persistEq k a b

theorem AgreeP_refl {g : Graph} {s : GState} (h : s.length = g.length) :
    AgreeP g s s := by
  refine ⟨h, h, fun i k a b hk ha hb => ?_⟩
  rw [ha] at hb
  cases hb
  exact persistEq_refl k a

theorem AgreeP_symm {g : Graph} {s s' : GState} (h : AgreeP g s s') :
    AgreeP g s' s :=
  ⟨h.2.1, h.1, fun i k a b hk ha hb => persistEq_symm (h.2.2 i k b a hk hb ha)⟩

theorem AgreeP_trans {g : Graph} {s1 s2 s3 : GState}
    (h1 : AgreeP g s1 s2) (h2 : AgreeP g s2 s3) : AgreeP g s1 s3 := by
  refine ⟨h1.1, h2.2.1, fun i k a c hk ha hc => ?_⟩
  have hi : i < s2.length := by
    have hlt := (List.getElem?_eq_some.mp ha).1
    have hg := h1.1
    have h2g := h1.2.1
    omega
  exact persistEq_trans (h1.2.2 i k a s2[i] hk ha (List.getElem?_eq_getElem hi))
    (h2.2.2 i k s2[i] c hk (List.getElem?_eq_getElem hi) hc)

/-- `s'` has the same length and the same `out` and `a_minus_b` attribute
on every node as `s` (only `d_out` fields may differ). -/
def sameOutCache (s s' : GState) : Prop :=
  s'.length = s.length ∧
  ∀ m : Nat, (s'[m]?).map NodeState.out = (s[m]?).map NodeState.out ∧
    (s'[m]?).map NodeState.a_minus_b = (s[m]?).map NodeState.a_minus_b

theorem sameOutCache_refl (s : GState) : sameOutCache s s := ⟨rfl, fun _ => ⟨rfl, rfl⟩⟩

theorem sameOutCache_trans {s1 s2 s3 : GState}
    (h1 : sameOutCache s1 s2) (h2 : sameOutCache s2 s3) : sameOutCache s1 s3 := by
  refine ⟨by rw [h2.1, h1.1], fun m => ?_⟩
  obtain ⟨ha, hb⟩ := h1.2 m
  obtain ⟨hc, hd⟩ := h2.2 m
  exact ⟨hc.trans ha, hd.trans hb⟩

/-- A set that changes only `d_out` preserves `out` and the cache. -/
theorem set_d_out_sameOutCache {s : GState} {j : Nat} {st : NodeState}
    {d2 : Option Tensor} (hj : s[j]? = some st) :
    sameOutCache s (List.set s j { st with d_out := d2 }) := by
  have hlen : j < s.length := (List.getElem?_eq_some.mp hj).1
  refine ⟨by simp, fun m => ?_⟩
  by_cases hm : m = j
  · subst hm
    rw [List.getElem?_set_self hlen, hj]
    exact ⟨rfl, rfl⟩
  · rw [List.getElem?_set_ne (fun hh => hm hh.symm)]
    exact ⟨rfl, rfl⟩

theorem addIntoPred_sameOutCache {s : GState} {j : Nat} {t : Tensor} {s' : GState}
    (h : addIntoPred s j t = some s') : sameOutCache s s' := by
  obtain ⟨st, d, d2, hst, _, _, _, hs', _⟩ := addIntoPred_adds h
  subst hs'
  exact set_d_out_sameOutCache hst

/-- Inversion of `ValueNode.backward`: it is a no-op. -/
theorem backwardNode_value_eq {g : Graph} {s : GState} {i : Nat} {s' : GState}
    (hk : g[i]? = some .value) (h : backwardNode g s i = some s') :
    ∃ st, s[i]? = some st ∧ s' = s := by
  unfold backwardNode at h
  rw [hk] at h
  simp only [Option.bind_eq_bind, Option.some_bind, Option.bind_eq_some] at h
  obtain ⟨st, hst, h⟩ := h
  exact ⟨st, hst, by injection h with hh; exact hh.symm⟩

/-- Every node's `backward` writes only `d_out` accumulators: `out` and
the `a_minus_b` cache of every node are untouched. -/
theorem backwardNode_sameOutCache {g : Graph} {s : GState} {i : Nat} {s' : GState}
    (h : backwardNode g s i = some s') : sameOutCache s s' := by
  cases hk : g[i]? with
  | none => unfold backwardNode at h; rw [hk] at h; simp at h
  | some k =>
    cases k with
    | value =>
      obtain ⟨st, _, hs⟩ := backwardNode_value_eq hk h
      subst hs
      exact sameOutCache_refl _
    | vectorScalarAffine x w b =>
      obtain ⟨st, d, stx, xo, stw, wo, dx, dw, s1, s2, _, _, _, _, _, _, _, _,
        h1, h2, h3⟩ := backwardNode_vsa_eq hk h
      exact sameOutCache_trans (addIntoPred_sameOutCache h1)
        (sameOutCache_trans (addIntoPred_sameOutCache h2) (addIntoPred_sameOutCache h3))
    | squaredL2Distance a b =>
      obtain ⟨st, d, c, t1, da, t2, db, s1, _, _, _, _, _, _, _, h1, h2⟩ :=
        backwardNode_sqL2_eq hk h
      exact sameOutCache_trans (addIntoPred_sameOutCache h1) (addIntoPred_sameOutCache h2)
    | l2NormPenalty l w =>
      obtain ⟨st, d, stw, wo, t1, dw, _, _, _, _, _, _, h1⟩ := backwardNode_l2_eq hk h
      exact addIntoPred_sameOutCache h1
    | sumNode a b =>
      obtain ⟨st, d, s1, _, _, h1, h2⟩ := backwardNode_sumNode_eq hk h
      exact sameOutCache_trans (addIntoPred_sameOutCache h1) (addIntoPred_sameOutCache h2)

theorem seed_sameOutCache {s : GState} {o : Nat} {s' : GState}
    (h : seed s o = some s') : sameOutCache s s' := by
  unfold seed at h
  simp only [Option.bind_eq_bind, Option.bind_eq_some] at h
  obtain ⟨st, hst, h⟩ := h
  injection h with h
  subst h
  exact set_d_out_sameOutCache hst

theorem runBackward_sameOutCache {g : Graph} {n : Nat} {s s' : GState}
    (h : runBackward g n s = some s') : sameOutCache s s' := by
  induction n generalizing s with
  | zero =>
    unfold runBackward at h
    injection h with h
    subst h
    exact sameOutCache_refl s
  | succ n ih =>
    unfold runBackward at h
    simp only [Option.bind_eq_bind, Option.bind_eq_some] at h
    obtain ⟨s1, h1, h2⟩ := h
    exact sameOutCache_trans (backwardNode_sameOutCache h1) (ih h2)

theorem sameOutCache_AgreeP {g : Graph} {s s' : GState}
    (hlen : s.length = g.length) (h : sameOutCache s s') : AgreeP g s s' := by
  refine ⟨hlen, by rw [h.1, hlen], fun i k a b hk ha hb => ?_⟩
  obtain ⟨ho, hc⟩ := h.2 i
  rw [ha, hb] at ho hc
  simp only [Option.map_some', Option.some.injEq] at ho hc
  cases k with
  | value => exact ⟨ho.symm, hc.symm⟩
  | squaredL2Distance a b => trivial
  | vectorScalarAffine x w b2 => exact hc.symm
  | l2NormPenalty l w => exact hc.symm
  | sumNode a b2 => exact hc.symm

/-- A successful `forward` writes back a state whose persistent attributes
agree with the old ones: a leaf keeps its `out` and cache, operator nodes
keep their cache (the squared-distance node rewrites its cache, which is
not persistent). -/
theorem computeForward_cache_persist {s : GState} {k : NodeKind} {st : NodeState}
    {o : Tensor} {c : Option Tensor} (h : computeForward s k st = some (o, c)) :
    persistEq k st ⟨some o, some (Tensor.zerosLike o), c⟩ := by
  cases k with
  | value =>
    simp only [computeForward, Option.bind_eq_bind, Option.bind_eq_some, Prod.mk.injEq,
      Option.some.injEq] at h
    obtain ⟨o2, ho2, ho, hc⟩ := h
    exact ⟨by rw [ho2, ho], by rw [hc]⟩
  | squaredL2Distance a b => trivial
  | vectorScalarAffine x w b =>
    simp only [computeForward, Option.bind_eq_bind, Option.bind_eq_some, Prod.mk.injEq,
      Option.some.injEq] at h
    obtain ⟨_, _, _, _, _, _, _, _, _, _, _, _, _, _, _, _, _, hc⟩ := h
    show st.a_minus_b = c
    exact hc
  | l2NormPenalty l w =>
    simp only [computeForward, Option.bind_eq_bind, Option.bind_eq_some, Prod.mk.injEq,
      Option.some.injEq] at h
    obtain ⟨_, _, _, _, _, hc⟩ := h
    show st.a_minus_b = c
    exact hc
  | sumNode a b =>
    simp only [computeForward, Option.bind_eq_bind, Option.bind_eq_some, Prod.mk.injEq,
      Option.some.injEq] at h
    obtain ⟨_, _, _, _, _, _, _, _, _, _, _, hc⟩ := h
    show st.a_minus_b = c
    exact hc

theorem forwardNode_persist {g : Graph} {s : GState} {i : Nat} {s' : GState}
    (hlen : s.length = g.length) (h : forwardNode g s i = some s') : AgreeP g s s' := by
  obtain ⟨k, st, o, c, hk, hst, hoc, hs'⟩ := forwardNode_eq_some h
  subst hs'
  have hi : i < s.length := (List.getElem?_eq_some.mp hst).1
  refine ⟨hlen, by simpa using hlen, fun m k2 a b hk2 ha hb => ?_⟩
  by_cases hm : m = i
  · subst hm
    rw [List.getElem?_set_self hi] at hb
    injection hb with hb
    subst hb
    rw [hst] at ha
    injection ha with ha
    subst ha
    rw [hk] at hk2
    injection hk2 with hk2
    subst hk2
    exact computeForward_cache_persist hoc
  · rw [List.getElem?_set_ne (fun hh => hm hh.symm)] at hb
    rw [ha] at hb
    injection hb with hb
    subst hb
    exact persistEq_refl k2 a

theorem AgreeP_length_left {g : Graph} {s s' : GState} (h : AgreeP g s s') :
    s.length = g.length := h.1

theorem runForward_persist {g : Graph} {n : Nat} {s s' : GState}
    (hlen : s.length = g.length) (h : runForward g n s = some s') : AgreeP g s s' := by
  induction n generalizing s' with
  | zero =>
    unfold runForward at h
    injection h with h
    subst h
    exact AgreeP_refl hlen
  | succ n ih =>
    unfold runForward at h
    simp only [Option.bind_eq_bind, Option.bind_eq_some] at h
    obtain ⟨s1, h1, h2⟩ := h
    have hag1 : AgreeP g s s1 := ih h1
    exact AgreeP_trans hag1 (forwardNode_persist hag1.2.1 h2)

/-- `forward` of one node is a function of the predecessors' outputs and
the node's own persistent attributes only. -/
theorem computeForward_congr {s s' : GState} {k : NodeKind} {st st' : NodeState}
    (hpre : ∀ j ∈ predIdx k, s[j]? = s'[j]?) (hpe : persistEq k st st') :
    computeForward s k st = computeForward s' k st' := by
  cases k with
  | value =>
    obtain ⟨ho, hc⟩ := hpe
    simp only [computeForward, ho, hc]
  | vectorScalarAffine x w b =>
    have hx := hpre x (by simp [predIdx])
    have hw := hpre w (by simp [predIdx])
    have hb := hpre b (by simp [predIdx])
    have hc : st.a_minus_b = st'.a_minus_b := hpe
    simp only [computeForward, hx, hw, hb, hc]
  | squaredL2Distance a b =>
    have ha := hpre a (by simp [predIdx])
    have hb := hpre b (by simp [predIdx])
    simp only [computeForward, ha, hb]
  | l2NormPenalty l w =>
    have hw := hpre w (by simp [predIdx])
    have hc : st.a_minus_b = st'.a_minus_b := hpe
    simp only [computeForward, hw, hc]
  | sumNode a b =>
    have ha := hpre a (by simp [predIdx])
    have hb := hpre b (by simp [predIdx])
    have hc : st.a_minus_b = st'.a_minus_b := hpe
    simp only [computeForward, ha, hb, hc]

/-- One forward step on two persistently-agreeing states: both fail, or
both succeed with states that additionally agree fully up to the node just
computed. -/
theorem forwardNode_congr {g : Graph} {s s' : GState} {m : Nat}
    (htopo : TopoOK g) (hag : AgreeP g s s')
    (hpre : ∀ j, j < m → s[j]? = s'[j]?) (hm : m < g.length) :
    (forwardNode g s m = none ∧ forwardNode g s' m = none) ∨
    (∃ t t', forwardNode g s m = some t ∧ forwardNode g s' m = some t' ∧
      AgreeP g t t' ∧ ∀ j, j < m + 1 → t[j]? = t'[j]?) := by
  have hms : m < s.length := by rw [hag.1]; exact hm
  have hms2 : m < s'.length := by rw [hag.2.1]; exact hm
  have hgk : g[m]? = some g[m] := List.getElem?_eq_getElem hm
  have hsm : s[m]? = some s[m] := List.getElem?_eq_getElem hms
  have hsm2 : s'[m]? = some s'[m] := List.getElem?_eq_getElem hms2
  have hpe : persistEq g[m] s[m] s'[m] := hag.2.2 m _ _ _ hgk hsm hsm2
  have hpred : ∀ j ∈ predIdx g[m], s[j]? = s'[j]? := fun j hj => hpre j (htopo m hm j hj)
  have hcf : computeForward s g[m] s[m] = computeForward s' g[m] s'[m] :=
    computeForward_congr hpred hpe
  unfold forwardNode
  rw [hgk, hsm, hsm2]
  simp only [Option.bind_eq_bind, Option.some_bind]
  rw [← hcf]
  cases hoc : computeForward s g[m] s[m] with
  | none => left; exact ⟨rfl, rfl⟩
  | some oc =>
    obtain ⟨o, c⟩ := oc
    right
    refine ⟨List.set s m ⟨some o, some o.zerosLike, c⟩,
      List.set s' m ⟨some o, some o.zerosLike, c⟩, rfl, rfl, ?_, ?_⟩
    · refine ⟨by simpa using hag.1, by simpa using hag.2.1, fun i k2 a b hk2 ha hb => ?_⟩
      by_cases hi : i = m
      · subst hi
        rw [List.getElem?_set_self hms] at ha
        rw [List.getElem?_set_self hms2] at hb
        injection ha with ha
        injection hb with hb
        subst ha
        subst hb
        exact persistEq_refl k2 _
      · rw [List.getElem?_set_ne (fun hh => hi hh.symm)] at ha
        rw [List.getElem?_set_ne (fun hh => hi hh.symm)] at hb
        exact hag.2.2 i k2 a b hk2 ha hb
    · intro j hj
      by_cases hi : j = m
      · subst hi
        rw [List.getElem?_set_self hms, List.getElem?_set_self hms2]
      · rw [List.getElem?_set_ne (fun hh => hi hh.symm),
          List.getElem?_set_ne (fun hh => hi hh.symm)]
        exact hpre j (by omega)

/-- The forward sweep on two persistently-agreeing states: both fail, or
both succeed with states agreeing fully on all computed prefixes. -/
theorem runForward_congr {g : Graph} {s s' : GState}
    (htopo : TopoOK g) (hag : AgreeP g s s') :
    ∀ n, n ≤ g.length →
    (runForward g n s = none ∧ runForward g n s' = none) ∨
    (∃ t t', runForward g n s = some t ∧ runForward g n s' = some t' ∧
      AgreeP g t t' ∧ ∀ j, j < n → t[j]? = t'[j]?) := by
  intro n
  induction n with
  | zero =>
    intro _
    right
    exact ⟨s, s', rfl, rfl, hag, fun j hj => by omega⟩
  | succ n ih =>
    intro hn
    rcases ih (by omega) with ⟨h1, h2⟩ | ⟨t, t', h1, h2, hag2, hpre⟩
    · left
      unfold runForward
      rw [h1, h2]
      exact ⟨rfl, rfl⟩
    · rcases forwardNode_congr htopo hag2 hpre (by omega) with ⟨hf1, hf2⟩ |
        ⟨u, u', hf1, hf2, hag3, hpre3⟩
      · left
        unfold runForward
        rw [h1, h2]
        simpa using ⟨hf1, hf2⟩
      · right
        refine ⟨u, u', ?_, ?_, hag3, hpre3⟩
        · unfold runForward; rw [h1]; simpa using hf1
        · unfold runForward; rw [h2]; simpa using hf2

/-- The full forward sweep is determined by the persistent attributes. -/
theorem runForward_deterministic {g : Graph} {s s' : GState}
    (htopo : TopoOK g) (hag : AgreeP g s s') :
    runForward g g.length s = runForward g g.length s' := by
  rcases runForward_congr htopo hag g.length le_rfl with ⟨h1, h2⟩ |
    ⟨t, t', h1, h2, hag2, hpre⟩
  · rw [h1, h2]
  · rw [h1, h2]
    congr 1
    apply List.ext_getElem?
    intro i
    by_cases hi : i < g.length
    · exact hpre i hi
    · rw [List.getElem?_eq_none (by rw [hag2.1]; omega),
        List.getElem?_eq_none (by rw [hag2.2.1]; omega)]

/-- C8: re-running a full forward+backward cycle on the same graph with
leaf values unchanged reproduces exactly the same state: if one cycle on
`s` produced `s1`, a cycle on `s1` (whose leaf `out`s are those of `s`)
produces `s1` again — every node's `out` and `d_out` are identical in both
runs.  `TopoOK g` is the spec's DAG/topological-order precondition and
`s.length = g.length` says every node has a state slot. -/
theorem cycle_idempotent {g : Graph} {o : Nat} {s s1 : GState}
    (htopo : TopoOK g) (hlen : s.length = g.length)
    (h : cycle g o s = some s1) :
    cycle g o s1 = some s1 := by
  unfold cycle at h ⊢
  simp only [Option.bind_eq_bind, Option.bind_eq_some] at h
  obtain ⟨f, hf, s2, hseed, hback⟩ := h
  have hag_sf : AgreeP g s f := runForward_persist hlen hf
  have hflen : f.length = g.length := hag_sf.2.1
  have hsoc1 : sameOutCache f s2 := seed_sameOutCache hseed
  have hsoc2 : sameOutCache s2 s1 := runBackward_sameOutCache hback
  have hag_f1 : AgreeP g f s1 :=
    sameOutCache_AgreeP hflen (sameOutCache_trans hsoc1 hsoc2)
  have hag : AgreeP g s s1 := AgreeP_trans hag_sf hag_f1
  have hrf : runForward g g.length s1 = some f := by
    rw [runForward_deterministic htopo (AgreeP_symm hag)]
    exact hf
  simp only [Option.bind_eq_bind]
  rw [hrf]
  simp only [Option.some_bind]
  rw [hseed]
  simp only [Option.some_bind]
  exact hback

/-- Concrete instance of C8: a second cycle on the squared-distance
scenario's post-cycle state reproduces it exactly. -/
theorem cycle_idempotent_witness :
    cycle sqDistGraph 2
      [⟨some (.vector [1, 2, 3]), some (.vector [-6, -6, -8]), none⟩,
       ⟨some (.vector [4, 5, 7]), some (.vector [6, 6, 8]), none⟩,
       ⟨some (.scalar 34), some (.scalar 1), some (.vector [-3, -3, -4])⟩] =
      some
        [⟨some (.vector [1, 2, 3]), some (.vector [-6, -6, -8]), none⟩,
         ⟨some (.vector [4, 5, 7]), some (.vector [6, 6, 8]), none⟩,
         ⟨some (.scalar 34), some (.scalar 1), some (.vector [-3, -3, -4])⟩] :=
  cycle_idempotent (g := sqDistGraph) (o := 2) (s := sqDistInit)
    (by decide) (by decide) (by decide)
